import Mathlib

/-!
Verification of the healthtech backend core: the text chunker
(`chunk_text` / `_split_by_words` in `backend/language_utils.py`) and the
asynchronous OCR job orchestrator (`extract_text_from_s3` in
`backend/file_processor.py`).

Strings are embedded as `List Char`.  Python's whitespace handling
(`str.strip`, `str.split`, the regex class `\s`) is modelled with a single
predicate `isWS` covering the ASCII whitespace characters.  `max_chars` is
an `Int` (Python ints are unbounded and may be negative).  The single
Python expression in `chunk_text` that can raise (`word_chunks[-1]` on an
empty list) is modelled by returning `Option`; `none` means an exception
escaped.

The OCR service is modelled as an oracle `Nat → QueryResult` giving the
response to the n-th `get_document_text_detection` call; the polling loop
is run with explicit fuel (number of `while` iterations), and the run is
instrumented with the number of queries issued and the trace of values
taken by the `text_lines` accumulator.
-/

/-- ASCII whitespace, the characters recognised by Python's `str.strip` /
`str.split` / regex `\s` on ASCII text. -/
def isWS (c : Char) : Bool :=
  c = ' ' || c = '\t' || c = '\n' || c = '\r' || c = '\x0b' || c = '\x0c'

/-- The sentence-terminating punctuation of the chunker's regex `[.!?]`. -/
def isPunct (c : Char) : Bool :=
  c = '.' || c = '!' || c = '?'

/-- ASCII uppercase, the regex class `[A-Z]`. -/
def isUpperAZ (c : Char) : Bool :=
  'A' ≤ c && c ≤ 'Z'

/-- Python `str.strip()`: drop leading and trailing whitespace. -/
def pyStrip (s : List Char) : List Char :=
  ((s.dropWhile isWS).reverse.dropWhile isWS).reverse

/-- Helper for `pyWords`: scan the string, `acc` holds the current word
reversed. -/
def pyWordsAux : List Char → List Char → List (List Char)
  | [], acc => if acc = [] then [] else [acc.reverse]
  | c :: cs, acc =>
    if isWS c then
      if acc = [] then pyWordsAux cs [] else acc.reverse :: pyWordsAux cs []
    else pyWordsAux cs (c :: acc)

/-- Python `str.split()` with no argument: the whitespace-separated words,
with no empty strings. -/
def pyWords (s : List Char) : List (List Char) :=
  pyWordsAux s []

/-- The scanner behind `re.split(r'(?<=[.!?])\s+(?=[A-Z])', text)`.
`skip` is true while consuming the whitespace run of a separator that
already matched; `prevP` records whether the previously consumed character
was sentence-terminating punctuation (the lookbehind); `acc` holds the
current piece reversed.  A separator matches at a whitespace character
whose preceding character was punctuation and whose maximal whitespace run
is followed by an ASCII uppercase letter (the lookahead). -/
def sentSplitAux : Bool → Bool → List Char → List Char → List (List Char)
  | _, _, [], acc => [acc.reverse]
  | true, _, c :: cs, acc =>
    if isWS c then sentSplitAux true false cs acc
    else sentSplitAux false (isPunct c) cs (c :: acc)
  | false, prevP, c :: cs, acc =>
    if prevP && isWS c then
      match (c :: cs).dropWhile isWS with
      | d :: _ =>
        if isUpperAZ d then acc.reverse :: sentSplitAux true false cs []
        else sentSplitAux false (isPunct c) cs (c :: acc)
      | [] => sentSplitAux false (isPunct c) cs (c :: acc)
    else sentSplitAux false (isPunct c) cs (c :: acc)

/-- `re.split(r'(?<=[.!?])\s+(?=[A-Z])', text)` from `chunk_text`. -/
def pySentSplit (t : List Char) : List (List Char) :=
  sentSplitAux false false t []

/-- One iteration of the `for word in words` loop of `_split_by_words`.
State is `(chunks, current_chunk)`. -/
def splitByWordsStep (maxChars : Int) (st : List (List Char) × List Char)
    (w : List Char) : List (List Char) × List Char :=
  if (st.2.length : Int) + (w.length : Int) + 1 > maxChars then
    if st.2 ≠ [] then (st.1 ++ [pyStrip st.2], w)
    else (st.1 ++ [w], st.2)
  else
    if st.2 ≠ [] then (st.1, st.2 ++ ' ' :: w)
    else (st.1, w)

/-- `_split_by_words(text, max_chars)` from `language_utils.py`. -/
def split_by_words (text : List Char) (maxChars : Int) : List (List Char) :=
  let st := (pyWords text).foldl (splitByWordsStep maxChars) ([], [])
  if pyStrip st.2 ≠ [] then st.1 ++ [pyStrip st.2] else st.1

/-- One iteration of the `for sentence in sentences` loop of `chunk_text`.
State is `(chunks, current_chunk)`.  `none` models the `IndexError` that
`word_chunks[-1]` would raise on an empty list. -/
def chunkStep (maxChars : Int) (st : List (List Char) × List Char)
    (sentence : List Char) : Option (List (List Char) × List Char) :=
  let s := pyStrip sentence
  if s = [] then some st
  else if (st.2.length : Int) + (s.length : Int) + 1 > maxChars then
    let chunks := if st.2 ≠ [] then st.1 ++ [pyStrip st.2] else st.1
    if (s.length : Int) > maxChars then
      match (split_by_words s maxChars).getLast? with
      | some last => some (chunks ++ (split_by_words s maxChars).dropLast, last)
      | none => none
    else some (chunks, s)
  else
    if st.2 ≠ [] then some (st.1, st.2 ++ ' ' :: s)
    else some (st.1, s)

/-- `chunk_text(text, max_chars)` from `language_utils.py`. -/
def chunk_text (text : List Char) (maxChars : Int) : Option (List (List Char)) :=
  if pyStrip text = [] then some []
  else if (text.length : Int) ≤ maxChars then some [pyStrip text]
  else
    match (pySentSplit text).foldlM (chunkStep maxChars) ([], []) with
    | none => none
    | some st =>
      some (if pyStrip st.2 ≠ [] then st.1 ++ [pyStrip st.2] else st.1)

/-- A string with no whitespace character (a single "word"). -/
def wsFree (s : List Char) : Prop := ∀ c ∈ s, isWS c = false

instance (s : List Char) : Decidable (wsFree s) :=
  inferInstanceAs (Decidable (∀ c ∈ s, isWS c = false))

/-! ## The OCR job orchestrator (`extract_text_from_s3`) -/

/-- A Textract block, as read by the code (`BlockType`, `Text`). -/
structure TBlock where
  blockType : String
  text : String
deriving DecidableEq

/-- One response of `get_document_text_detection`: `JobStatus`, `Blocks`,
optional `NextToken`, optional `StatusMessage`. -/
structure TResponse where
  jobStatus : String
  blocks : List TBlock
  nextToken : Option String
  statusMessage : Option String
deriving DecidableEq

/-- Outcome of one status query: a response, or a `botocore` `ClientError`
carrying its message. -/
inductive QueryResult where
  | ok (r : TResponse)
  | clientError (e : String)
deriving DecidableEq

/-- Outcome of `start_document_text_detection`: a job id, or a
`ClientError`. -/
inductive StartResult where
  | ok (jobId : String)
  | clientError (e : String)
deriving DecidableEq

/-- What `extract_text_from_s3` does as observed by its caller: a normal
return, or a raised exception (Python class name, message). -/
inductive Outcome where
  | ret (text : String)
  | exc (excType : String) (msg : String)
deriving DecidableEq

/-- Control position inside the polling `while` loop: at the top of the
loop, or inside the pagination `while 'NextToken' in result` loop with the
current `text_lines` and the token to present next. -/
inductive Phase where
  | polling
  | paging (lines : List String) (tok : String)
deriving DecidableEq

/-- Instrumented result of running the polling loop: `outcome` (`none`
when the iteration fuel ran out, i.e. the loop was still running),
`queries` (index after the last issued status query), and `trace` (the
successive values taken by the `text_lines` accumulator, one entry per
assignment or per completed page of appends). -/
structure LoopResult where
  outcome : Option Outcome
  queries : Nat
  trace : List (List String)
deriving DecidableEq

/-- The `for block in result.get('Blocks', [])` filter: texts of the
LINE-classified blocks, in order. -/
def collectLines (blocks : List TBlock) : List String :=
  (blocks.filter (fun b => b.blockType == "LINE")).map (fun b => b.text)

/-- Python `'\n'.join(text_lines)`. -/
def joinLines (ls : List String) : String :=
  String.intercalate "\n" ls

/-- The polling `while` loop of `extract_text_from_s3`, lines 90-135 of
`file_processor.py`.  `oracle q` is the service's answer to the q-th
status query; `fuel` bounds the number of loop iterations modelled;
`attempt` is the Python `attempt` counter.  Messages are those of the
`raise RuntimeError(...)` sites before the outer `except Exception`
wrapping.  Statuses other than SUCCEEDED/FAILED/IN_PROGRESS fall through
the `if`/`elif` chain and re-enter the loop without touching `attempt`. -/
def loopAux (oracle : Nat → QueryResult) (maxAttempts : Nat) :
    Nat → Nat → Nat → Phase → LoopResult
  | 0, q, _, _ => ⟨none, q, []⟩
  | fuel + 1, q, attempt, Phase.polling =>
    if attempt < maxAttempts then
      match oracle q with
      | .clientError e =>
        if attempt < maxAttempts - 1 then
          loopAux oracle maxAttempts fuel (q + 1) (attempt + 1) Phase.polling
        else
          ⟨some (.exc "RuntimeError" ("Failed to get Textract job status: " ++ e)), q + 1, []⟩
      | .ok r =>
        if r.jobStatus == "SUCCEEDED" then
          let lines := collectLines r.blocks
          match r.nextToken with
          | none => ⟨some (.ret (joinLines lines)), q + 1, [[], lines]⟩
          | some t =>
            let rest := loopAux oracle maxAttempts fuel (q + 1) attempt (Phase.paging lines t)
            ⟨rest.outcome, rest.queries, [] :: lines :: rest.trace⟩
        else if r.jobStatus == "FAILED" then
          ⟨some (.exc "RuntimeError"
              ("Textract job failed: " ++ r.statusMessage.getD "Unknown error")), q + 1, []⟩
        else if r.jobStatus == "IN_PROGRESS" then
          loopAux oracle maxAttempts fuel (q + 1) (attempt + 1) Phase.polling
        else
          loopAux oracle maxAttempts fuel (q + 1) attempt Phase.polling
    else
      ⟨some (.exc "RuntimeError" "Textract job timed out - took longer than expected to complete"), q, []⟩
  | fuel + 1, q, attempt, Phase.paging lines _ =>
    match oracle q with
    | .clientError e =>
      if attempt < maxAttempts - 1 then
        loopAux oracle maxAttempts fuel (q + 1) (attempt + 1) Phase.polling
      else
        ⟨some (.exc "RuntimeError" ("Failed to get Textract job status: " ++ e)), q + 1, []⟩
    | .ok r =>
      let lines2 := lines ++ collectLines r.blocks
      match r.nextToken with
      | none => ⟨some (.ret (joinLines lines2)), q + 1, [lines2]⟩
      | some t =>
        let rest := loopAux oracle maxAttempts fuel (q + 1) attempt (Phase.paging lines2 t)
        ⟨rest.outcome, rest.queries, lines2 :: rest.trace⟩

/-- `extract_text_from_s3`: submission then the polling loop with
`max_attempts = 60`.  Every inner `RuntimeError` propagates through the
outer `except Exception` handler, which re-raises
`RuntimeError(f"Unexpected error during text extraction: {e}")`; a
`ClientError` from submission is reported by the outer `except
ClientError` handler as `RuntimeError(f"Failed to start Textract job:
{e}")` without that wrapping. -/
def extract_text_from_s3 (startR : StartResult) (oracle : Nat → QueryResult)
    (fuel : Nat) : LoopResult :=
  match startR with
  | .clientError e =>
    ⟨some (.exc "RuntimeError" ("Failed to start Textract job: " ++ e)), 0, []⟩
  | .ok _ =>
    let r := loopAux oracle 60 fuel 0 0 Phase.polling
    match r.outcome with
    | none => ⟨none, r.queries, r.trace⟩
    | some (.ret t) => ⟨some (.ret t), r.queries, r.trace⟩
    | some (.exc ty msg) =>
      ⟨some (.exc ty ("Unexpected error during text extraction: " ++ msg)), r.queries, r.trace⟩

/-! ## Lemmas about words and stripping -/

theorem pyWordsAux_append_ws {c : Char} (hc : isWS c = true) :
    ∀ (a b acc : List Char),
      pyWordsAux (a ++ c :: b) acc = pyWordsAux a acc ++ pyWordsAux b [] := by
  intro a
  induction a with
  | nil =>
    intro b acc
    by_cases hacc : acc = [] <;> simp [pyWordsAux, hc, hacc]
  | cons x xs ih =>
    intro b acc
    by_cases hx : isWS x
    · by_cases hacc : acc = [] <;> simp [pyWordsAux, hx, hacc, ih]
    · simp only [List.cons_append, pyWordsAux, hx, Bool.false_eq_true, if_false]
      exact ih b (x :: acc)

theorem pyWords_append_ws {c : Char} (hc : isWS c = true) (a b : List Char) :
    pyWords (a ++ c :: b) = pyWords a ++ pyWords b := by
  simp [pyWords, pyWordsAux_append_ws hc]

theorem pyWords_ws_cons {c : Char} (hc : isWS c = true) (s : List Char) :
    pyWords (c :: s) = pyWords s := by
  simp [pyWords, pyWordsAux, hc]

theorem pyWordsAux_all_ws {s : List Char} (h : ∀ c ∈ s, isWS c = true) :
    pyWordsAux s [] = [] := by
  induction s with
  | nil => simp [pyWordsAux]
  | cons c cs ih =>
    have hc : isWS c = true := h c (List.mem_cons_self c cs)
    simp [pyWordsAux, hc, ih (fun d hd => h d (List.mem_cons_of_mem c hd))]

theorem pyWords_append_all_ws {t : List Char} (h : ∀ c ∈ t, isWS c = true)
    (a : List Char) : pyWords (a ++ t) = pyWords a := by
  induction t with
  | nil => simp
  | cons c t' _ih =>
    have hc : isWS c = true := h c (List.mem_cons_self c t')
    rw [pyWords_append_ws hc a t']
    have : pyWords t' = [] :=
      pyWordsAux_all_ws (fun d hd => h d (List.mem_cons_of_mem c hd))
    simp [this]

theorem pyWords_dropWhile_ws (s : List Char) :
    pyWords (s.dropWhile isWS) = pyWords s := by
  induction s with
  | nil => simp
  | cons c cs ih =>
    by_cases hc : isWS c
    · rw [List.dropWhile_cons_of_pos hc, ih, pyWords_ws_cons hc]
    · rw [List.dropWhile_cons_of_neg hc]

theorem strip_decomp (s : List Char) :
    ∃ t, s.dropWhile isWS = pyStrip s ++ t ∧ ∀ c ∈ t, isWS c = true := by
  refine ⟨((s.dropWhile isWS).reverse.takeWhile isWS).reverse, ?_, ?_⟩
  · unfold pyStrip
    conv_lhs => rw [← List.reverse_reverse (s.dropWhile isWS)]
    rw [← List.reverse_append]
    congr 1
    exact (List.takeWhile_append_dropWhile isWS (s.dropWhile isWS).reverse).symm
  · intro c hc
    rw [List.mem_reverse] at hc
    exact List.mem_takeWhile_imp hc

theorem pyWords_strip (s : List Char) : pyWords (pyStrip s) = pyWords s := by
  obtain ⟨t, hdec, hws⟩ := strip_decomp s
  calc pyWords (pyStrip s) = pyWords (pyStrip s ++ t) :=
        (pyWords_append_all_ws hws _).symm
    _ = pyWords (s.dropWhile isWS) := by rw [hdec]
    _ = pyWords s := pyWords_dropWhile_ws s

theorem pyWordsAux_wsfree {s : List Char} (h : wsFree s) :
    ∀ acc, pyWordsAux s acc =
      if acc.reverse ++ s = [] then [] else [acc.reverse ++ s] := by
  induction s with
  | nil => intro acc; by_cases hacc : acc = [] <;> simp [pyWordsAux, hacc]
  | cons c cs ih =>
    intro acc
    have hc : isWS c = false := h c (List.mem_cons_self c cs)
    have hcs : wsFree cs := fun d hd => h d (List.mem_cons_of_mem c hd)
    rw [pyWordsAux, if_neg (by simp [hc]), ih hcs (c :: acc)]
    simp

theorem pyWords_wsfree {s : List Char} (hne : s ≠ []) (h : wsFree s) :
    pyWords s = [s] := by
  rw [pyWords, pyWordsAux_wsfree h []]
  simp [hne]

theorem pyWordsAux_mem {w : List Char} :
    ∀ {s acc : List Char}, wsFree acc → w ∈ pyWordsAux s acc →
      w ≠ [] ∧ wsFree w := by
  intro s
  induction s with
  | nil =>
    intro acc hacc hw
    rw [pyWordsAux] at hw
    by_cases hne : acc = []
    · simp [hne] at hw
    · rw [if_neg hne] at hw
      simp only [List.mem_singleton] at hw
      subst hw
      exact ⟨by simpa using hne, fun c hc => hacc c (by simpa using hc)⟩
  | cons c cs ih =>
    intro acc hacc hw
    rw [pyWordsAux] at hw
    by_cases hc : isWS c
    · rw [if_pos hc] at hw
      by_cases hne : acc = []
      · rw [if_pos hne] at hw
        exact ih (by intro d hd; cases hd) hw
      · rw [if_neg hne] at hw
        rcases List.mem_cons.mp hw with h1 | h2
        · subst h1
          exact ⟨by simpa using hne, fun d hd => hacc d (by simpa using hd)⟩
        · exact ih (by intro d hd; cases hd) h2
    · rw [if_neg hc] at hw
      refine ih ?_ hw
      intro d hd
      rcases List.mem_cons.mp hd with h1 | h2
      · subst h1; simpa using hc
      · exact hacc d h2

theorem pyWords_mem {w s : List Char} (hw : w ∈ pyWords s) :
    w ≠ [] ∧ wsFree w :=
  pyWordsAux_mem (by intro d hd; cases hd) hw

theorem pyWordsAux_ne_nil {acc : List Char} (hacc : acc ≠ []) :
    ∀ s, pyWordsAux s acc ≠ [] := by
  intro s
  induction s generalizing acc with
  | nil => simp [pyWordsAux, hacc]
  | cons c cs ih =>
    by_cases hc : isWS c
    · simp [pyWordsAux, hc, hacc]
    · rw [pyWordsAux, if_neg (by simp [hc])]
      exact ih (by simp)

/-- A string that equals its own `strip`: empty, or with non-whitespace
first and last characters. -/
def noWSEnds (s : List Char) : Prop :=
  (∀ x, s.head? = some x → isWS x = false) ∧
  (∀ x, s.getLast? = some x → isWS x = false)

theorem noWSEnds_nil : noWSEnds [] := by
  constructor <;> intro x hx <;> simp at hx

theorem dropWhile_eq_self_of_head {s : List Char} {p : Char → Bool}
    (h : ∀ x, s.head? = some x → p x = false) : s.dropWhile p = s := by
  cases s with
  | nil => rfl
  | cons c cs =>
    have := h c rfl
    rw [List.dropWhile_cons_of_neg (by simp [this])]

theorem noWSEnds_strip {s : List Char} (h : noWSEnds s) : pyStrip s = s := by
  unfold pyStrip
  rw [dropWhile_eq_self_of_head h.1]
  rw [dropWhile_eq_self_of_head (by
    intro x hx
    rw [List.head?_reverse] at hx
    exact h.2 x hx)]
  exact List.reverse_reverse s

theorem head_dropWhile {s : List Char} {p : Char → Bool} {x : Char}
    (h : (s.dropWhile p).head? = some x) : p x = false := by
  induction s with
  | nil => simp [List.dropWhile] at h
  | cons c cs ih =>
    by_cases hc : p c
    · rw [List.dropWhile_cons_of_pos hc] at h
      exact ih h
    · rw [List.dropWhile_cons_of_neg hc] at h
      simp at h
      subst h
      simpa using hc

theorem strip_noWSEnds (s : List Char) : noWSEnds (pyStrip s) := by
  constructor
  · intro x hx
    obtain ⟨t, hdec, _⟩ := strip_decomp s
    by_cases hne : pyStrip s = []
    · rw [hne] at hx; simp at hx
    · have : (s.dropWhile isWS).head? = some x := by
        rw [hdec]
        cases hs : pyStrip s with
        | nil => exact absurd hs hne
        | cons a as => rw [hs] at hx; simpa using hx
      exact head_dropWhile this
  · intro x hx
    unfold pyStrip at hx
    rw [List.getLast?_reverse] at hx
    exact head_dropWhile hx

theorem wsfree_noWSEnds {s : List Char} (h : wsFree s) : noWSEnds s := by
  constructor
  · intro x hx
    exact h x (List.mem_of_mem_head? hx)
  · intro x hx
    refine h x ?_
    rw [← List.head?_reverse] at hx
    exact (List.mem_reverse).mp (List.mem_of_mem_head? hx)

theorem head_append_of_ne_nil {a : List Char} (r : List Char) (h : a ≠ []) :
    (a ++ r).head? = a.head? := by
  cases a with
  | nil => exact absurd rfl h
  | cons c cs => rfl

theorem getLast_append_of_ne_nil {b : List Char} (l : List Char) (h : b ≠ []) :
    (l ++ b).getLast? = b.getLast? := by
  rw [← List.head?_reverse, ← List.head?_reverse, List.reverse_append]
  exact head_append_of_ne_nil l.reverse (by simpa using h)

theorem noWSEnds_append {a b : List Char} (c : Char) (ha : noWSEnds a)
    (hane : a ≠ []) (hb : noWSEnds b) (hbne : b ≠ []) :
    noWSEnds (a ++ c :: b) := by
  constructor
  · intro x hx
    rw [head_append_of_ne_nil _ hane] at hx
    exact ha.1 x hx
  · intro x hx
    have : (a ++ c :: b).getLast? = b.getLast? := by
      rw [show a ++ c :: b = (a ++ [c]) ++ b by simp]
      exact getLast_append_of_ne_nil _ hbne
    rw [this] at hx
    exact hb.2 x hx

theorem length_dropWhile_le_self (p : Char → Bool) (l : List Char) :
    (l.dropWhile p).length ≤ l.length := by
  induction l with
  | nil => simp
  | cons c cs ih =>
    by_cases hc : p c
    · rw [List.dropWhile_cons_of_pos hc]
      exact Nat.le_succ_of_le ih
    · rw [List.dropWhile_cons_of_neg hc]

theorem pyStrip_length_le (s : List Char) : (pyStrip s).length ≤ s.length := by
  unfold pyStrip
  calc ((s.dropWhile isWS).reverse.dropWhile isWS).reverse.length
      = ((s.dropWhile isWS).reverse.dropWhile isWS).length := List.length_reverse _
    _ ≤ (s.dropWhile isWS).reverse.length := length_dropWhile_le_self _ _
    _ = (s.dropWhile isWS).length := List.length_reverse _
    _ ≤ s.length := length_dropWhile_le_self _ _

theorem pyStrip_nil : pyStrip [] = [] := rfl

theorem pyWords_ne_nil_of_strip {s : List Char} (hne : s ≠ [])
    (h : noWSEnds s) : pyWords s ≠ [] := by
  cases s with
  | nil => exact absurd rfl hne
  | cons c cs =>
    have hc : isWS c = false := h.1 c rfl
    rw [pyWords, pyWordsAux, if_neg (by simp [hc])]
    exact pyWordsAux_ne_nil (by simp) cs

/-! ## Lemmas about the sentence splitter -/

theorem sentSplitAux_words :
    ∀ (rem : List Char) (skip prevP : Bool) (acc : List Char),
      (skip = true → acc = []) →
      ((sentSplitAux skip prevP rem acc).map pyWords).flatten =
        pyWords (acc.reverse ++ rem) := by
  intro rem
  induction rem with
  | nil =>
    intro skip prevP acc _
    cases skip <;> simp [sentSplitAux]
  | cons c cs ih =>
    intro skip prevP acc hskip
    cases skip with
    | true =>
      have hacc : acc = [] := hskip rfl
      subst hacc
      by_cases hc : isWS c
      · rw [sentSplitAux, if_pos hc, ih true false [] (fun _ => rfl)]
        simp [pyWords_ws_cons hc]
      · rw [sentSplitAux, if_neg hc, ih false (isPunct c) [c] (by simp)]
        simp
    | false =>
      by_cases hm : (prevP && isWS c) = true
      · rw [sentSplitAux, if_pos hm]
        have hc : isWS c = true := by
          cases h1 : isWS c
          · rw [h1, Bool.and_false] at hm; exact absurd hm (by simp)
          · rfl
        cases hrest : (c :: cs).dropWhile isWS with
        | nil =>
          simp only
          rw [ih false (isPunct c) (c :: acc) (by simp)]
          simp
        | cons d ds =>
          by_cases hd : isUpperAZ d
          · simp only [hd, if_true, List.map_cons, List.flatten_cons]
            rw [ih true false [] (fun _ => rfl)]
            rw [pyWords_append_ws hc acc.reverse cs]
            simp
          · simp only [hd, Bool.false_eq_true, if_false]
            rw [ih false (isPunct c) (c :: acc) (by simp)]
            simp
      · rw [sentSplitAux, if_neg (by simpa using hm),
          ih false (isPunct c) (c :: acc) (by simp)]
        simp

theorem pySentSplit_words (t : List Char) :
    ((pySentSplit t).map pyWords).flatten = pyWords t := by
  have := sentSplitAux_words t false false [] (by simp)
  simpa [pySentSplit] using this

theorem sentSplitAux_wsfree :
    ∀ (rem : List Char) (prevP : Bool) (acc : List Char), wsFree rem →
      sentSplitAux false prevP rem acc = [acc.reverse ++ rem] := by
  intro rem
  induction rem with
  | nil => intro prevP acc _; simp [sentSplitAux]
  | cons c cs ih =>
    intro prevP acc h
    have hc : isWS c = false := h c (List.mem_cons_self c cs)
    rw [sentSplitAux, if_neg (by simp [hc]),
      ih (isPunct c) (c :: acc) (fun d hd => h d (List.mem_cons_of_mem c hd))]
    simp

theorem pySentSplit_wsfree {t : List Char} (h : wsFree t) :
    pySentSplit t = [t] := by
  rw [pySentSplit, sentSplitAux_wsfree t false [] h]
  simp

/-! ## Invariants of the chunking folds -/

/-- The shape every produced chunk has: non-empty, equal to its own strip,
and within the limit unless it is a single whitespace-free word. -/
def goodChunk (mc : Int) (c : List Char) : Prop :=
  c ≠ [] ∧ noWSEnds c ∧ ((c.length : Int) ≤ mc ∨ wsFree c)

/-- Invariant of the `(chunks, current_chunk)` state of both loops. -/
def goodState (mc : Int) (st : List (List Char) × List Char) : Prop :=
  (∀ c ∈ st.1, goodChunk mc c) ∧ (st.2 = [] ∨ goodChunk mc st.2)

/-- All words held by a loop state, sealed chunks first. -/
def wordsOf (st : List (List Char) × List Char) : List (List Char) :=
  (st.1.map pyWords).flatten ++ pyWords st.2

theorem pyWords_nil : pyWords [] = [] := rfl

theorem isWS_space : isWS ' ' = true := rfl

theorem goodChunk_strip {mc : Int} {c : List Char} (h : goodChunk mc c) :
    pyStrip c = c := noWSEnds_strip h.2.1

theorem splitByWordsStep_good {mc : Int} {st : List (List Char) × List Char}
    {w : List Char} (hw : w ≠ []) (hwf : wsFree w) (hst : goodState mc st) :
    goodState mc (splitByWordsStep mc st w) ∧
    wordsOf (splitByWordsStep mc st w) = wordsOf st ++ [w] ∧
    ((splitByWordsStep mc st w).1 ≠ [] ∨ (splitByWordsStep mc st w).2 ≠ []) := by
  obtain ⟨hchunks, hcur⟩ := hst
  have hwgood : goodChunk mc w := ⟨hw, wsfree_noWSEnds hwf, Or.inr hwf⟩
  have hwords : pyWords w = [w] := pyWords_wsfree hw hwf
  unfold splitByWordsStep
  by_cases hov : (st.2.length : Int) + (w.length : Int) + 1 > mc
  · rw [if_pos hov]
    by_cases hne : st.2 ≠ []
    · have hgood2 : goodChunk mc st.2 := hcur.resolve_left hne
      rw [if_pos hne]
      refine ⟨⟨?_, Or.inr hwgood⟩, ?_, Or.inr hw⟩
      · intro c hc
        rcases List.mem_append.mp hc with h1 | h2
        · exact hchunks c h1
        · rw [List.mem_singleton] at h2
          subst h2
          rw [goodChunk_strip hgood2]
          exact hgood2
      · simp only [wordsOf, List.map_append, List.flatten_append,
          goodChunk_strip hgood2, hwords]
        simp
    · rw [if_neg hne]
      push_neg at hne
      refine ⟨⟨?_, Or.inl hne⟩, ?_, Or.inl (by simp)⟩
      · intro c hc
        rcases List.mem_append.mp hc with h1 | h2
        · exact hchunks c h1
        · rw [List.mem_singleton] at h2
          subst h2
          exact hwgood
      · simp [wordsOf, hne, hwords, pyWords_nil]
  · rw [if_neg hov]
    push_neg at hov
    by_cases hne : st.2 ≠ []
    · have hgood2 : goodChunk mc st.2 := hcur.resolve_left hne
      rw [if_pos hne]
      refine ⟨⟨hchunks, Or.inr ⟨by simp, ?_, Or.inl ?_⟩⟩, ?_, Or.inr (by simp)⟩
      · exact noWSEnds_append ' ' hgood2.2.1 hne (wsfree_noWSEnds hwf) hw
      · have : (st.2 ++ ' ' :: w).length = st.2.length + w.length + 1 := by
          simp [List.length_append]
          omega
        rw [this]
        push_cast
        omega
      · simp only [wordsOf]
        rw [pyWords_append_ws isWS_space st.2 w, hwords]
        simp
    · rw [if_neg hne]
      push_neg at hne
      refine ⟨⟨hchunks, Or.inr ⟨hw, wsfree_noWSEnds hwf, ?_⟩⟩, ?_, Or.inr hw⟩
      · left
        rw [hne] at hov
        simp only [List.length_nil, Nat.cast_zero] at hov
        show (w.length : Int) ≤ mc
        omega
      · simp [wordsOf, hne, hwords, pyWords_nil]

theorem sbw_fold {mc : Int} :
    ∀ (ws : List (List Char)) (st : List (List Char) × List Char),
      (∀ w ∈ ws, w ≠ [] ∧ wsFree w) → goodState mc st →
      goodState mc (ws.foldl (splitByWordsStep mc) st) ∧
      wordsOf (ws.foldl (splitByWordsStep mc) st) = wordsOf st ++ ws ∧
      (ws ≠ [] →
        (ws.foldl (splitByWordsStep mc) st).1 ≠ [] ∨
        (ws.foldl (splitByWordsStep mc) st).2 ≠ []) := by
  intro ws
  induction ws with
  | nil => intro st _ hst; exact ⟨hst, by simp, by simp⟩
  | cons w ws' ih =>
    intro st hws hst
    have hw := hws w (List.mem_cons_self w ws')
    obtain ⟨hg, he, hne⟩ := splitByWordsStep_good hw.1 hw.2 hst
    have hws' : ∀ v ∈ ws', v ≠ [] ∧ wsFree v :=
      fun v hv => hws v (List.mem_cons_of_mem w hv)
    obtain ⟨ihg, ihe, ihne⟩ := ih (splitByWordsStep mc st w) hws' hg
    rw [List.foldl_cons]
    refine ⟨ihg, by rw [ihe, he]; simp, fun _ => ?_⟩
    cases ws' with
    | nil => simpa using hne
    | cons v vs => exact ihne (by simp)

theorem split_by_words_spec {mc : Int} {s : List Char} (hne : s ≠ [])
    (hs : noWSEnds s) :
    split_by_words s mc ≠ [] ∧ (∀ c ∈ split_by_words s mc, goodChunk mc c) ∧
    ((split_by_words s mc).map pyWords).flatten = pyWords s := by
  have hmem : ∀ w ∈ pyWords s, w ≠ [] ∧ wsFree w := fun w hw => pyWords_mem hw
  have hinit : goodState mc ([], []) :=
    ⟨fun c hc => absurd hc (List.not_mem_nil c), Or.inl rfl⟩
  obtain ⟨hg, he, hnonempty⟩ := sbw_fold (pyWords s) ([], []) hmem hinit
  have hwne : pyWords s ≠ [] := pyWords_ne_nil_of_strip hne hs
  set st := (pyWords s).foldl (splitByWordsStep mc) ([], []) with hst
  have hwords : wordsOf st = pyWords s := by
    rw [he]; simp [wordsOf, pyWords_nil]
  unfold split_by_words
  rw [← hst]
  by_cases hcur : pyStrip st.2 ≠ []
  · rw [if_pos hcur]
    have hcur2 : st.2 ≠ [] := by
      intro h; rw [h, pyStrip_nil] at hcur; exact hcur rfl
    have hgood2 : goodChunk mc st.2 := hg.2.resolve_left hcur2
    refine ⟨by simp, ?_, ?_⟩
    · intro c hc
      rcases List.mem_append.mp hc with h1 | h2
      · exact hg.1 c h1
      · rw [List.mem_singleton] at h2
        subst h2
        rw [goodChunk_strip hgood2]
        exact hgood2
    · rw [← hwords]
      simp [wordsOf, goodChunk_strip hgood2]
  · rw [if_neg hcur]
    push_neg at hcur
    have hcur2 : st.2 = [] := by
      by_contra hne2
      have hgood2 : goodChunk mc st.2 := hg.2.resolve_left hne2
      rw [goodChunk_strip hgood2] at hcur
      exact hne2 hcur
    have hw2 : pyWords st.2 = [] := by rw [hcur2, pyWords_nil]
    refine ⟨?_, hg.1, ?_⟩
    · rcases hnonempty hwne with h1 | h2
      · exact h1
      · exact absurd hcur2 h2
    · rw [← hwords]
      simp [wordsOf, hw2]

set_option maxHeartbeats 1000000 in
theorem chunkStep_good {mc : Int} {st : List (List Char) × List Char}
    (sentence : List Char) (hst : goodState mc st) :
    ∃ st', chunkStep mc st sentence = some st' ∧ goodState mc st' ∧
      wordsOf st' = wordsOf st ++ pyWords sentence := by
  obtain ⟨hchunks, hcur⟩ := hst
  have hsw : pyWords sentence = pyWords (pyStrip sentence) :=
    (pyWords_strip sentence).symm
  unfold chunkStep
  by_cases hs : pyStrip sentence = []
  · refine ⟨st, by rw [if_pos hs], ⟨hchunks, hcur⟩, ?_⟩
    rw [hsw, hs, pyWords_nil, List.append_nil]
  · rw [if_neg hs]
    have hsnw : noWSEnds (pyStrip sentence) := strip_noWSEnds sentence
    have hchunksgood : ∀ c ∈ (if st.2 ≠ [] then st.1 ++ [pyStrip st.2] else st.1),
        goodChunk mc c := by
      by_cases hne : st.2 ≠ []
      · rw [if_pos hne]
        intro c hc
        rcases List.mem_append.mp hc with h1 | h2
        · exact hchunks c h1
        · rw [List.mem_singleton] at h2
          subst h2
          have hgood2 : goodChunk mc st.2 := hcur.resolve_left hne
          rw [goodChunk_strip hgood2]
          exact hgood2
      · rw [if_neg hne]
        exact hchunks
    have hchunkswords :
        (((if st.2 ≠ [] then st.1 ++ [pyStrip st.2] else st.1).map pyWords).flatten)
          = wordsOf st := by
      by_cases hne : st.2 ≠ []
      · have hgood2 : goodChunk mc st.2 := hcur.resolve_left hne
        rw [if_pos hne]
        simp [wordsOf, goodChunk_strip hgood2]
      · push_neg at hne
        rw [if_neg (by simp [hne])]
        simp [wordsOf, hne, pyWords_nil]
    by_cases hov : (st.2.length : Int) + ((pyStrip sentence).length : Int) + 1 > mc
    · rw [if_pos hov]
      by_cases hlong : ((pyStrip sentence).length : Int) > mc
      · rw [if_pos hlong]
        obtain ⟨hwne, hwgood, hwwords⟩ := @split_by_words_spec mc (pyStrip sentence) hs hsnw
        obtain ⟨last, hlast⟩ := Option.ne_none_iff_exists'.mp
          (mt List.getLast?_eq_none_iff.mp hwne)
        rw [hlast]
        refine ⟨_, rfl, ⟨?_, Or.inr ?_⟩, ?_⟩
        · intro c hc
          rcases List.mem_append.mp hc with h1 | h2
          · exact hchunksgood c h1
          · exact hwgood c (List.dropLast_subset _ h2)
        · refine hwgood last ?_
          have := List.dropLast_append_getLast? last hlast
          rw [← this]
          exact List.mem_append.mpr (Or.inr (List.mem_singleton_self last))
        · have hdecomp := List.dropLast_append_getLast? last hlast
          have hkey : (List.map pyWords
              (split_by_words (pyStrip sentence) mc).dropLast).flatten
              ++ pyWords last = pyWords (pyStrip sentence) := by
            rw [← hwwords]
            conv_rhs => rw [← hdecomp]
            simp
          show (List.map pyWords
              ((if st.2 ≠ [] then st.1 ++ [pyStrip st.2] else st.1) ++
                (split_by_words (pyStrip sentence) mc).dropLast)).flatten
              ++ pyWords last = wordsOf st ++ pyWords sentence
          rw [List.map_append, List.flatten_append, List.append_assoc, hkey,
            hchunkswords, ← hsw]
      · rw [if_neg hlong]
        push_neg at hlong
        refine ⟨_, rfl, ⟨hchunksgood, Or.inr ⟨hs, hsnw, Or.inl hlong⟩⟩, ?_⟩
        simp only [wordsOf]
        rw [hsw, hchunkswords]
        rfl
    · rw [if_neg hov]
      push_neg at hov
      by_cases hne : st.2 ≠ []
      · have hgood2 : goodChunk mc st.2 := hcur.resolve_left hne
        rw [if_pos hne]
        refine ⟨_, rfl, ⟨hchunks, Or.inr ⟨by simp, ?_, Or.inl ?_⟩⟩, ?_⟩
        · exact noWSEnds_append ' ' hgood2.2.1 hne hsnw hs
        · show ((st.2 ++ ' ' :: pyStrip sentence).length : Int) ≤ mc
          have : (st.2 ++ ' ' :: pyStrip sentence).length
              = st.2.length + (pyStrip sentence).length + 1 := by
            simp [List.length_append]
            omega
          rw [this]
          push_cast
          omega
        · simp only [wordsOf]
          rw [hsw, pyWords_append_ws isWS_space st.2 (pyStrip sentence)]
          simp
      · rw [if_neg hne]
        push_neg at hne
        refine ⟨_, rfl, ⟨hchunks, Or.inr ⟨hs, hsnw, Or.inl ?_⟩⟩, ?_⟩
        · rw [hne] at hov
          simp only [List.length_nil, Nat.cast_zero] at hov
          show (((pyStrip sentence).length : Int)) ≤ mc
          omega
        · simp only [wordsOf]
          rw [hsw, hne, pyWords_nil]
          simp

theorem chunk_fold {mc : Int} :
    ∀ (sents : List (List Char)) (st : List (List Char) × List Char),
      goodState mc st →
      ∃ st', sents.foldlM (chunkStep mc) st = some st' ∧ goodState mc st' ∧
        wordsOf st' = wordsOf st ++ (sents.map pyWords).flatten := by
  intro sents
  induction sents with
  | nil => intro st hst; exact ⟨st, rfl, hst, by simp⟩
  | cons s rest ih =>
    intro st hst
    obtain ⟨st1, hstep, hg1, hw1⟩ := chunkStep_good s hst
    obtain ⟨st', hfold, hg', hw'⟩ := ih st1 hg1
    refine ⟨st', ?_, hg', ?_⟩
    · rw [List.foldlM_cons, hstep]
      exact hfold
    · rw [hw', hw1]
      simp

theorem chunk_text_spec (t : List Char) (mc : Int) :
    ∃ cs, chunk_text t mc = some cs ∧ (∀ c ∈ cs, goodChunk mc c) ∧
      (cs.map pyWords).flatten = pyWords t := by
  unfold chunk_text
  by_cases hempty : pyStrip t = []
  · refine ⟨[], by rw [if_pos hempty], fun c hc => absurd hc (List.not_mem_nil c), ?_⟩
    rw [← pyWords_strip t, hempty, pyWords_nil]
    rfl
  · rw [if_neg hempty]
    by_cases hshort : (t.length : Int) ≤ mc
    · rw [if_pos hshort]
      refine ⟨[pyStrip t], rfl, ?_, ?_⟩
      · intro c hc
        rw [List.mem_singleton] at hc
        subst hc
        refine ⟨hempty, strip_noWSEnds t, Or.inl ?_⟩
        calc ((pyStrip t).length : Int) ≤ (t.length : Int) := by
              exact_mod_cast pyStrip_length_le t
          _ ≤ mc := hshort
      · simp [pyWords_strip]
    · rw [if_neg hshort]
      have hinit : goodState mc ([], []) :=
        ⟨fun c hc => absurd hc (List.not_mem_nil c), Or.inl rfl⟩
      obtain ⟨st', hfold, ⟨hchunks, hcur⟩, hwords⟩ :=
        chunk_fold (pySentSplit t) ([], []) hinit
      rw [hfold]
      have hred : (match some st' with
          | none => none
          | some st => some (if pyStrip st.2 ≠ [] then st.1 ++ [pyStrip st.2] else st.1))
          = some (if pyStrip st'.2 ≠ [] then st'.1 ++ [pyStrip st'.2] else st'.1) := rfl
      rw [hred]
      have hwords' : wordsOf st' = pyWords t := by
        rw [hwords, pySentSplit_words t]
        simp [wordsOf, pyWords_nil]
      by_cases hlast : pyStrip st'.2 ≠ []
      · rw [if_pos hlast]
        have hne2 : st'.2 ≠ [] := by
          intro h; rw [h, pyStrip_nil] at hlast; exact hlast rfl
        have hgood2 : goodChunk mc st'.2 := hcur.resolve_left hne2
        refine ⟨_, rfl, ?_, ?_⟩
        · intro c hc
          rcases List.mem_append.mp hc with h1 | h2
          · exact hchunks c h1
          · rw [List.mem_singleton] at h2
            subst h2
            rw [goodChunk_strip hgood2]
            exact hgood2
        · rw [← hwords']
          simp [wordsOf, goodChunk_strip hgood2]
      · rw [if_neg hlast]
        push_neg at hlast
        have hcur2 : st'.2 = [] := by
          by_contra hne2
          have hgood2 : goodChunk mc st'.2 := hcur.resolve_left hne2
          rw [goodChunk_strip hgood2] at hlast
          exact hne2 hlast
        refine ⟨_, rfl, hchunks, ?_⟩
        rw [← hwords']
        simp [wordsOf, hcur2, pyWords_nil]

/-! ## The degenerate non-positive `max_chars` path -/

theorem splitByWordsStep_neg {mc : Int} (hmc : mc ≤ 0)
    (chunks : List (List Char)) (w : List Char) :
    splitByWordsStep mc (chunks, []) w = (chunks ++ [w], []) := by
  unfold splitByWordsStep
  rw [if_pos (by simp; omega)]
  rw [if_neg (by simp)]

theorem sbw_fold_neg {mc : Int} (hmc : mc ≤ 0) :
    ∀ (ws chunks : List (List Char)),
      ws.foldl (splitByWordsStep mc) (chunks, []) = (chunks ++ ws, []) := by
  intro ws
  induction ws with
  | nil => intro chunks; simp
  | cons w ws' ih =>
    intro chunks
    rw [List.foldl_cons, splitByWordsStep_neg hmc, ih]
    simp

theorem split_by_words_neg {mc : Int} (hmc : mc ≤ 0) (s : List Char) :
    split_by_words s mc = pyWords s := by
  unfold split_by_words
  rw [sbw_fold_neg hmc]
  simp [pyStrip_nil]

theorem pyWords_ne_nil_strip {t : List Char} (h : pyStrip t ≠ []) :
    pyWords t ≠ [] := by
  rw [← pyWords_strip t]
  exact pyWords_ne_nil_of_strip h (strip_noWSEnds t)

theorem chunk_fold_neg {mc : Int} (hmc : mc ≤ 0) :
    ∀ (sents chunks : List (List Char)) (cur : List Char),
      (cur = [] → chunks = []) →
      (cur = [] ∨ (cur ≠ [] ∧ wsFree cur ∧ noWSEnds cur)) →
      ∃ st', sents.foldlM (chunkStep mc) (chunks, cur) = some st' ∧
        st'.1 ++ (if st'.2 = [] then [] else [st'.2]) =
          (chunks ++ (if cur = [] then [] else [cur]))
            ++ (sents.map pyWords).flatten ∧
        (st'.2 = [] → st'.1 = []) ∧
        (st'.2 = [] ∨ (st'.2 ≠ [] ∧ wsFree st'.2 ∧ noWSEnds st'.2)) := by
  intro sents
  induction sents with
  | nil =>
    intro chunks cur h1 h2
    refine ⟨(chunks, cur), rfl, ?_, h1, h2⟩
    by_cases hcur : cur = [] <;> simp [hcur]
  | cons s0 rest ih =>
    intro chunks cur h1 h2
    rw [List.foldlM_cons]
    by_cases hs : pyStrip s0 = []
    · have hstep : chunkStep mc (chunks, cur) s0 = some (chunks, cur) := by
        unfold chunkStep
        rw [if_pos hs]
      rw [hstep]
      obtain ⟨st', hfold, heq, hi1, hi2⟩ := ih chunks cur h1 h2
      refine ⟨st', hfold, ?_, hi1, hi2⟩
      rw [heq]
      have : pyWords s0 = [] := by
        rw [← pyWords_strip s0, hs, pyWords_nil]
      simp [this]
    · have hsnw : noWSEnds (pyStrip s0) := strip_noWSEnds s0
      have hwne : pyWords (pyStrip s0) ≠ [] :=
        pyWords_ne_nil_of_strip hs hsnw
      have hsbw : split_by_words (pyStrip s0) mc ≠ [] := by
        rw [split_by_words_neg hmc]
        exact hwne
      obtain ⟨last, hlast⟩ := Option.ne_none_iff_exists'.mp
        (mt List.getLast?_eq_none_iff.mp hsbw)
      have hdecomp := List.dropLast_append_getLast? last hlast
      have hlastmem : last ∈ split_by_words (pyStrip s0) mc := by
        rw [← hdecomp]
        exact List.mem_append.mpr (Or.inr (List.mem_singleton_self last))
      have hlastw : last ∈ pyWords (pyStrip s0) := by
        rw [← split_by_words_neg hmc]
        exact hlastmem
      have hlastgood := pyWords_mem hlastw
      have hstep : chunkStep mc (chunks, cur) s0 = some
          ((if cur ≠ [] then chunks ++ [pyStrip cur] else chunks)
            ++ (split_by_words (pyStrip s0) mc).dropLast, last) := by
        unfold chunkStep
        rw [if_neg hs, if_pos ?hov, if_pos ?hlong, hlast]
        case hov =>
          have h0 : (1 : Int) ≤ ((pyStrip s0).length : Int) := by
            have := List.length_pos.mpr hs
            exact_mod_cast this
          have h0' : (0 : Int) ≤ (cur.length : Int) := by positivity
          omega
        case hlong =>
          have h0 : (1 : Int) ≤ ((pyStrip s0).length : Int) := by
            have := List.length_pos.mpr hs
            exact_mod_cast this
          omega
      rw [hstep]
      have hchunks' : (if cur ≠ [] then chunks ++ [pyStrip cur] else chunks)
          = chunks ++ (if cur = [] then [] else [cur]) := by
        by_cases hcur : cur = []
        · rw [if_neg (by simp [hcur]), if_pos hcur]
          simp
        · rcases h2 with h2a | h2b
          · exact absurd h2a hcur
          · rw [if_pos hcur, if_neg hcur, noWSEnds_strip h2b.2.2]
      obtain ⟨st', hfold, heq, hi1, hi2⟩ := ih _ last
        (fun h => absurd h hlastgood.1)
        (Or.inr ⟨hlastgood.1, hlastgood.2, wsfree_noWSEnds hlastgood.2⟩)
      refine ⟨st', hfold, ?_, hi1, hi2⟩
      rw [heq, hchunks']
      rw [if_neg hlastgood.1]
      have hsw : pyWords s0 = pyWords (pyStrip s0) := (pyWords_strip s0).symm
      rw [List.map_cons, List.flatten_cons, hsw]
      conv_rhs => rw [← split_by_words_neg hmc (pyStrip s0), ← hdecomp]
      simp

theorem chunk_text_neg {mc : Int} (hmc : mc ≤ 0) {t : List Char}
    (ht : pyStrip t ≠ []) : chunk_text t mc = some (pyWords t) := by
  have htne : t ≠ [] := by
    intro h
    rw [h, pyStrip_nil] at ht
    exact ht rfl
  have hlen : (1 : Int) ≤ (t.length : Int) := by
    have := List.length_pos.mpr htne
    exact_mod_cast this
  unfold chunk_text
  rw [if_neg ht, if_neg (by omega)]
  obtain ⟨st', hfold, heq, hi1, hi2⟩ :=
    chunk_fold_neg hmc (pySentSplit t) [] [] (fun _ => rfl) (Or.inl rfl)
  rw [hfold]
  have hwt : ((pySentSplit t).map pyWords).flatten = pyWords t :=
    pySentSplit_words t
  rw [hwt] at heq
  rw [if_pos (rfl : ([] : List Char) = [])] at heq
  simp only [List.nil_append, List.append_nil] at heq
  have hwne : pyWords t ≠ [] := pyWords_ne_nil_strip ht
  have hcur : st'.2 ≠ [] := by
    intro h
    rw [hi1 h, if_pos h] at heq
    simp only [List.append_nil] at heq
    exact hwne heq.symm
  rcases hi2 with h2a | h2b
  · exact absurd h2a hcur
  · have hstrip : pyStrip st'.2 = st'.2 := noWSEnds_strip h2b.2.2
    have hred : (match some st' with
        | none => none
        | some st => some (if pyStrip st.2 ≠ [] then st.1 ++ [pyStrip st.2] else st.1))
        = some (if pyStrip st'.2 ≠ [] then st'.1 ++ [pyStrip st'.2] else st'.1) := rfl
    rw [hred, hstrip, if_pos hcur]
    rw [if_neg hcur] at heq
    rw [heq]

theorem chunk_idem {mc : Int} {c : List Char} (hgood : goodChunk mc c) :
    chunk_text c mc = some [c] := by
  obtain ⟨hne, hnw, hdisj⟩ := hgood
  have hstrip : pyStrip c = c := noWSEnds_strip hnw
  by_cases hshort : (c.length : Int) ≤ mc
  · unfold chunk_text
    rw [hstrip, if_neg hne, if_pos hshort]
  · have hwf : wsFree c := by
      rcases hdisj with h | h
      · exact absurd h hshort
      · exact h
    push_neg at hshort
    have hlen0 : ((([] : List Char)).length : Int) + (c.length : Int) + 1 > mc := by
      simp
      omega
    have hwords : pyWords c = [c] := pyWords_wsfree hne hwf
    have hsbwstep : splitByWordsStep mc ([], []) c = ([c], []) := by
      unfold splitByWordsStep
      rw [if_pos hlen0]
      simp
    have hsbw : split_by_words c mc = [c] := by
      unfold split_by_words
      rw [hwords, List.foldl_cons, hsbwstep, List.foldl_nil]
      simp [pyStrip_nil]
    have hstep2 : chunkStep mc ([], []) c = some ([], c) := by
      unfold chunkStep
      simp only [hstrip]
      rw [if_neg hne, if_pos hlen0,
        if_pos (show (c.length : Int) > mc by omega), hsbw]
      simp
    unfold chunk_text
    rw [hstrip, if_neg hne, if_neg (by omega), pySentSplit_wsfree hwf]
    rw [List.foldlM_cons, hstep2]
    simp [hstrip, hne]

/-! ## Lemmas about the polling loop -/

/-- The oracle answers queries `q0, q0+1, ...` with exactly the given
responses. -/
def servesChain (oracle : Nat → QueryResult) (q0 : Nat)
    (rs : List TResponse) : Prop :=
  ∀ i, (h : i < rs.length) → oracle (q0 + i) = QueryResult.ok (rs.get ⟨i, h⟩)

/-- The responses form a well-linked page chain: every page but the last
carries a continuation token, the last carries none. -/
def chained : List TResponse → Prop
  | [] => True
  | [r] => r.nextToken = none
  | r :: r2 :: rest => (∃ t, r.nextToken = some t) ∧ chained (r2 :: rest)

theorem servesChain_tail {oracle : Nat → QueryResult} {q0 : Nat}
    {r : TResponse} {rs : List TResponse}
    (h : servesChain oracle q0 (r :: rs)) :
    servesChain oracle (q0 + 1) rs := by
  intro i hi
  have := h (i + 1) (by simpa using Nat.succ_lt_succ hi)
  rw [show q0 + (i + 1) = q0 + 1 + i by omega] at this
  exact this

theorem servesChain_head {oracle : Nat → QueryResult} {q0 : Nat}
    {r : TResponse} {rs : List TResponse}
    (h : servesChain oracle q0 (r :: rs)) : oracle q0 = QueryResult.ok r := by
  have := h 0 (by simp)
  simpa using this

/-- Running the pagination loop over a served chain of pages collects all
their LINE texts in order and issues one query per page. -/
theorem loopAux_paging (oracle : Nat → QueryResult) (maxAttempts : Nat) :
    ∀ (rs : List TResponse) (fuel q a : Nat) (lines : List String)
      (tok : String),
      rs ≠ [] → chained rs → servesChain oracle q rs → rs.length ≤ fuel →
      (loopAux oracle maxAttempts fuel q a (Phase.paging lines tok)).outcome =
        some (Outcome.ret (joinLines
          (lines ++ (rs.map (fun r => collectLines r.blocks)).flatten))) ∧
      (loopAux oracle maxAttempts fuel q a (Phase.paging lines tok)).queries =
        q + rs.length := by
  intro rs
  induction rs with
  | nil => intro fuel q a lines tok hne; exact absurd rfl hne
  | cons r rest ih =>
    intro fuel q a lines tok _ hch hserve hfuel
    cases fuel with
    | zero => simp at hfuel
    | succ fuel' =>
      have hq : oracle q = QueryResult.ok r := servesChain_head hserve
      cases rest with
      | nil =>
        have htok : r.nextToken = none := hch
        rw [loopAux, hq]
        simp [htok]
      | cons r2 rest' =>
        obtain ⟨⟨t, htok⟩, hch'⟩ := hch
        have hres := ih fuel' (q + 1) a (lines ++ collectLines r.blocks) t
          (by simp) hch' (servesChain_tail hserve) (by simp at hfuel ⊢; omega)
        rw [loopAux, hq]
        refine ⟨?_, ?_⟩
        · simp [htok, hres.1]
        · simp [htok, hres.2]
          try omega

/-- A poll that observes SUCCEEDED aggregates the whole served page chain
and issues exactly one query per page. -/
theorem loopAux_succeeded (oracle : Nat → QueryResult) (maxAttempts : Nat)
    (r0 : TResponse) (rest : List TResponse) (fuel q a : Nat)
    (hst : r0.jobStatus = "SUCCEEDED") (hch : chained (r0 :: rest))
    (hserve : servesChain oracle q (r0 :: rest)) (ha : a < maxAttempts)
    (hfuel : (r0 :: rest).length ≤ fuel) :
    (loopAux oracle maxAttempts fuel q a Phase.polling).outcome =
      some (Outcome.ret (joinLines
        (((r0 :: rest).map (fun r => collectLines r.blocks)).flatten))) ∧
    (loopAux oracle maxAttempts fuel q a Phase.polling).queries =
      q + (r0 :: rest).length := by
  cases fuel with
  | zero => simp at hfuel
  | succ fuel' =>
    have hq : oracle q = QueryResult.ok r0 := servesChain_head hserve
    rw [loopAux, if_pos ha, hq]
    cases rest with
    | nil =>
      have htok : r0.nextToken = none := hch
      simp [hst, htok]
    | cons r2 rest' =>
      obtain ⟨⟨t, htok⟩, hch'⟩ := hch
      have hres := loopAux_paging oracle maxAttempts (r2 :: rest') fuel'
        (q + 1) a (collectLines r0.blocks) t (by simp) hch'
        (servesChain_tail hserve) (by simp at hfuel ⊢; omega)
      refine ⟨?_, ?_⟩
      · simp [hst, htok, hres.1]
      · simp [hst, htok, hres.2]
        try omega

/-- IN_PROGRESS responses advance the loop one query and one attempt at a
time without otherwise changing it. -/
theorem loopAux_progress_prefix (oracle : Nat → QueryResult)
    (maxAttempts : Nat) :
    ∀ (k fuel q a : Nat),
      (∀ i, i < k → ∃ r, oracle (q + i) = QueryResult.ok r ∧
        r.jobStatus = "IN_PROGRESS") →
      a + k ≤ maxAttempts → k ≤ fuel →
      loopAux oracle maxAttempts fuel q a Phase.polling =
        loopAux oracle maxAttempts (fuel - k) (q + k) (a + k) Phase.polling := by
  intro k
  induction k with
  | zero => intro fuel q a _ _ _; simp
  | succ k' ih =>
    intro fuel q a hprog hbound hfuel
    cases fuel with
    | zero => omega
    | succ fuel' =>
      obtain ⟨r, hq, hst⟩ := hprog 0 (by omega)
      rw [Nat.add_zero] at hq
      have hrec := ih fuel' (q + 1) (a + 1)
        (fun i hi => by
          obtain ⟨r', hq', hst'⟩ := hprog (i + 1) (by omega)
          exact ⟨r', by rw [show q + 1 + i = q + (i + 1) by omega]; exact hq', hst'⟩)
        (by omega) (by omega)
      rw [loopAux, if_pos (by omega), hq]
      rw [show (fuel' + 1) - (k' + 1) = fuel' - k' from by omega,
          show q + (k' + 1) = q + 1 + k' from by omega,
          show a + (k' + 1) = a + 1 + k' from by omega]
      rw [← hrec]
      simp [hst]

/-- A service that forever reports the job status `PARTIAL_SUCCESS` — a
status Textract's `GetDocumentTextDetection` can really return, and which
the code's `if`/`elif` chain does not handle. -/
def stuckOracle : Nat → QueryResult :=
  fun _ => QueryResult.ok ⟨"PARTIAL_SUCCESS", [], none, none⟩

theorem loopAux_stuck : ∀ (fuel q : Nat),
    loopAux stuckOracle 60 fuel q 0 Phase.polling =
      ⟨none, q + fuel, []⟩ := by
  intro fuel
  induction fuel with
  | zero => intro q; rw [loopAux]; simp
  | succ f ih =>
    intro q
    rw [loopAux, if_pos (by omega)]
    have hq : stuckOracle q =
        QueryResult.ok ⟨"PARTIAL_SUCCESS", [], none, none⟩ := rfl
    rw [hq]
    simp only [ih (q + 1)]
    simp
    omega

/-- A service that always reports FAILED with a status message. -/
def failedOracle : Nat → QueryResult :=
  fun _ => QueryResult.ok ⟨"FAILED", [], none, some "Document too large"⟩

/-- A service that always reports IN_PROGRESS. -/
def progressOracle : Nat → QueryResult :=
  fun _ => QueryResult.ok ⟨"IN_PROGRESS", [], none, none⟩

/-- A service whose every status query raises a transient `ClientError`. -/
def flakyOracle : Nat → QueryResult :=
  fun _ => QueryResult.clientError "connection reset"

/-- The spec's pagination scenario: one IN_PROGRESS poll, then SUCCEEDED
with lines A, B and a continuation token, then a final page with line C. -/
def specOracle : Nat → QueryResult
  | 0 => QueryResult.ok ⟨"IN_PROGRESS", [], none, none⟩
  | 1 => QueryResult.ok
      ⟨"SUCCEEDED", [⟨"LINE", "A"⟩, ⟨"LINE", "B"⟩], some "tok", none⟩
  | _ => QueryResult.ok ⟨"SUCCEEDED", [⟨"LINE", "C"⟩], none, none⟩

/-- A service run in which a transient error interrupts pagination: page 1
of a SUCCEEDED job is delivered, the follow-up query fails, and the job is
re-polled from scratch. -/
def cexOracle : Nat → QueryResult
  | 0 => QueryResult.ok ⟨"SUCCEEDED", [⟨"LINE", "A"⟩], some "t1", none⟩
  | 1 => QueryResult.clientError "transient"
  | 2 => QueryResult.ok ⟨"SUCCEEDED", [⟨"LINE", "A"⟩], some "t1", none⟩
  | _ => QueryResult.ok ⟨"SUCCEEDED", [⟨"LINE", "B"⟩], none, none⟩

/-- The next accumulator snapshot strictly extends the previous one. -/
def growsOnly (x y : List String) : Prop := y.take x.length = x

instance (x y : List String) : Decidable (growsOnly x y) :=
  inferInstanceAs (Decidable (y.take x.length = x))

/-- The next accumulator snapshot extends the previous one, or is a reset
to the empty accumulation. -/
def growStep (x y : List String) : Prop := y.take x.length = x ∨ y = []

instance (x y : List String) : Decidable (growStep x y) :=
  inferInstanceAs (Decidable (y.take x.length = x ∨ y = []))


/-! Step-shape equations of `loopAux`, one per branch of the loop body. -/

theorem loopAux_poll_timeout {oracle : Nat → QueryResult}
    {maxAttempts fuel q a : Nat} (ha : ¬a < maxAttempts) :
    loopAux oracle maxAttempts (fuel + 1) q a Phase.polling =
      ⟨some (Outcome.exc "RuntimeError"
        "Textract job timed out - took longer than expected to complete"),
        q, []⟩ := by
  rw [loopAux, if_neg ha]

theorem loopAux_poll_err_retry {oracle : Nat → QueryResult}
    {maxAttempts fuel q a : Nat} {e : String}
    (hq : oracle q = QueryResult.clientError e) (ha : a < maxAttempts)
    (hfinal : a < maxAttempts - 1) :
    loopAux oracle maxAttempts (fuel + 1) q a Phase.polling =
      loopAux oracle maxAttempts fuel (q + 1) (a + 1) Phase.polling := by
  rw [loopAux, if_pos ha, hq]
  simp [hfinal]

theorem loopAux_poll_err_final {oracle : Nat → QueryResult}
    {maxAttempts fuel q a : Nat} {e : String}
    (hq : oracle q = QueryResult.clientError e) (ha : a < maxAttempts)
    (hfinal : ¬a < maxAttempts - 1) :
    loopAux oracle maxAttempts (fuel + 1) q a Phase.polling =
      ⟨some (Outcome.exc "RuntimeError"
        ("Failed to get Textract job status: " ++ e)), q + 1, []⟩ := by
  rw [loopAux, if_pos ha, hq]
  simp [hfinal]

theorem loopAux_poll_succ_none {oracle : Nat → QueryResult}
    {maxAttempts fuel q a : Nat} {r : TResponse}
    (hq : oracle q = QueryResult.ok r) (ha : a < maxAttempts)
    (hst : r.jobStatus = "SUCCEEDED") (htok : r.nextToken = none) :
    loopAux oracle maxAttempts (fuel + 1) q a Phase.polling =
      ⟨some (Outcome.ret (joinLines (collectLines r.blocks))), q + 1,
        [[], collectLines r.blocks]⟩ := by
  rw [loopAux, if_pos ha, hq]
  simp [hst, htok]

theorem loopAux_poll_succ_some {oracle : Nat → QueryResult}
    {maxAttempts fuel q a : Nat} {r : TResponse} {t : String}
    (hq : oracle q = QueryResult.ok r) (ha : a < maxAttempts)
    (hst : r.jobStatus = "SUCCEEDED") (htok : r.nextToken = some t) :
    loopAux oracle maxAttempts (fuel + 1) q a Phase.polling =
      ⟨(loopAux oracle maxAttempts fuel (q + 1) a
          (Phase.paging (collectLines r.blocks) t)).outcome,
        (loopAux oracle maxAttempts fuel (q + 1) a
          (Phase.paging (collectLines r.blocks) t)).queries,
        [] :: collectLines r.blocks ::
          (loopAux oracle maxAttempts fuel (q + 1) a
            (Phase.paging (collectLines r.blocks) t)).trace⟩ := by
  rw [loopAux, if_pos ha, hq]
  simp [hst, htok]

theorem loopAux_poll_failed {oracle : Nat → QueryResult}
    {maxAttempts fuel q a : Nat} {r : TResponse}
    (hq : oracle q = QueryResult.ok r) (ha : a < maxAttempts)
    (hst : r.jobStatus = "FAILED") :
    loopAux oracle maxAttempts (fuel + 1) q a Phase.polling =
      ⟨some (Outcome.exc "RuntimeError"
        ("Textract job failed: " ++ r.statusMessage.getD "Unknown error")),
        q + 1, []⟩ := by
  rw [loopAux, if_pos ha, hq]
  simp [hst]

theorem loopAux_poll_progress {oracle : Nat → QueryResult}
    {maxAttempts fuel q a : Nat} {r : TResponse}
    (hq : oracle q = QueryResult.ok r) (ha : a < maxAttempts)
    (hst : r.jobStatus = "IN_PROGRESS") :
    loopAux oracle maxAttempts (fuel + 1) q a Phase.polling =
      loopAux oracle maxAttempts fuel (q + 1) (a + 1) Phase.polling := by
  rw [loopAux, if_pos ha, hq]
  simp [hst]

theorem loopAux_poll_other {oracle : Nat → QueryResult}
    {maxAttempts fuel q a : Nat} {r : TResponse}
    (hq : oracle q = QueryResult.ok r) (ha : a < maxAttempts)
    (hs : (r.jobStatus == "SUCCEEDED") = false)
    (hf : (r.jobStatus == "FAILED") = false)
    (hp : (r.jobStatus == "IN_PROGRESS") = false) :
    loopAux oracle maxAttempts (fuel + 1) q a Phase.polling =
      loopAux oracle maxAttempts fuel (q + 1) a Phase.polling := by
  rw [loopAux, if_pos ha, hq]
  simp [hs, hf, hp]

theorem loopAux_pag_err_retry {oracle : Nat → QueryResult}
    {maxAttempts fuel q a : Nat} {e : String} {lines : List String}
    {tok : String} (hq : oracle q = QueryResult.clientError e)
    (hfinal : a < maxAttempts - 1) :
    loopAux oracle maxAttempts (fuel + 1) q a (Phase.paging lines tok) =
      ⟨(loopAux oracle maxAttempts fuel (q + 1) (a + 1) Phase.polling).outcome,
        (loopAux oracle maxAttempts fuel (q + 1) (a + 1) Phase.polling).queries,
        (loopAux oracle maxAttempts fuel (q + 1) (a + 1) Phase.polling).trace⟩ := by
  rw [loopAux, hq]
  simp [hfinal]

theorem loopAux_pag_err_final {oracle : Nat → QueryResult}
    {maxAttempts fuel q a : Nat} {e : String} {lines : List String}
    {tok : String} (hq : oracle q = QueryResult.clientError e)
    (hfinal : ¬a < maxAttempts - 1) :
    loopAux oracle maxAttempts (fuel + 1) q a (Phase.paging lines tok) =
      ⟨some (Outcome.exc "RuntimeError"
        ("Failed to get Textract job status: " ++ e)), q + 1, []⟩ := by
  rw [loopAux, hq]
  simp [hfinal]

theorem loopAux_pag_none {oracle : Nat → QueryResult}
    {maxAttempts fuel q a : Nat} {r : TResponse} {lines : List String}
    {tok : String} (hq : oracle q = QueryResult.ok r)
    (htok : r.nextToken = none) :
    loopAux oracle maxAttempts (fuel + 1) q a (Phase.paging lines tok) =
      ⟨some (Outcome.ret (joinLines (lines ++ collectLines r.blocks))),
        q + 1, [lines ++ collectLines r.blocks]⟩ := by
  rw [loopAux, hq]
  simp [htok]

theorem loopAux_pag_some {oracle : Nat → QueryResult}
    {maxAttempts fuel q a : Nat} {r : TResponse} {lines : List String}
    {tok t : String} (hq : oracle q = QueryResult.ok r)
    (htok : r.nextToken = some t) :
    loopAux oracle maxAttempts (fuel + 1) q a (Phase.paging lines tok) =
      ⟨(loopAux oracle maxAttempts fuel (q + 1) a
          (Phase.paging (lines ++ collectLines r.blocks) t)).outcome,
        (loopAux oracle maxAttempts fuel (q + 1) a
          (Phase.paging (lines ++ collectLines r.blocks) t)).queries,
        (lines ++ collectLines r.blocks) ::
          (loopAux oracle maxAttempts fuel (q + 1) a
            (Phase.paging (lines ++ collectLines r.blocks) t)).trace⟩ := by
  rw [loopAux, hq]
  simp [htok]

theorem growStep_reset (x : List String) : growStep x [] := Or.inr rfl

theorem growStep_append (x y : List String) : growStep x (x ++ y) :=
  Or.inl (List.take_left x y)

theorem growStep_from_nil (y : List String) : growStep [] y :=
  Or.inl rfl

/-- Along any run of the polling loop, each snapshot of `text_lines`
either extends the previous one or is a reset to the empty accumulation
(a fresh SUCCEEDED poll after pagination was aborted by a transient
error). -/
theorem loopAux_trace_grow (oracle : Nat → QueryResult) (maxAttempts : Nat) :
    ∀ fuel : Nat,
      (∀ q a, List.Chain' growStep
          (loopAux oracle maxAttempts fuel q a Phase.polling).trace ∧
        ((loopAux oracle maxAttempts fuel q a Phase.polling).trace = [] ∨
          (loopAux oracle maxAttempts fuel q a Phase.polling).trace.head?
            = some [])) ∧
      (∀ q a lines tok, List.Chain' growStep
          (lines ::
            (loopAux oracle maxAttempts fuel q a (Phase.paging lines tok)).trace)) := by
  intro fuel
  induction fuel with
  | zero =>
    constructor
    · intro q a
      rw [loopAux]
      exact ⟨List.chain'_nil, Or.inl rfl⟩
    · intro q a lines tok
      rw [loopAux]
      exact List.chain'_singleton lines
  | succ f ih =>
    constructor
    · intro q a
      by_cases ha : a < maxAttempts
      · cases hq : oracle q with
        | clientError e =>
          by_cases hfinal : a < maxAttempts - 1
          · rw [loopAux_poll_err_retry hq ha hfinal]
            exact ih.1 (q + 1) (a + 1)
          · rw [loopAux_poll_err_final hq ha hfinal]
            exact ⟨List.chain'_nil, Or.inl rfl⟩
        | ok r =>
          by_cases hsucc : r.jobStatus = "SUCCEEDED"
          · cases htok : r.nextToken with
            | none =>
              rw [loopAux_poll_succ_none hq ha hsucc htok]
              refine ⟨List.chain'_cons.mpr
                ⟨growStep_from_nil _, List.chain'_singleton _⟩, Or.inr rfl⟩
            | some t =>
              rw [loopAux_poll_succ_some hq ha hsucc htok]
              refine ⟨List.chain'_cons.mpr
                ⟨growStep_from_nil _, ih.2 (q + 1) a (collectLines r.blocks) t⟩,
                Or.inr rfl⟩
          · by_cases hfail : r.jobStatus = "FAILED"
            · rw [loopAux_poll_failed hq ha hfail]
              exact ⟨List.chain'_nil, Or.inl rfl⟩
            · by_cases hprog : r.jobStatus = "IN_PROGRESS"
              · rw [loopAux_poll_progress hq ha hprog]
                exact ih.1 (q + 1) (a + 1)
              · rw [loopAux_poll_other hq ha (beq_eq_false_iff_ne.mpr hsucc)
                  (beq_eq_false_iff_ne.mpr hfail) (beq_eq_false_iff_ne.mpr hprog)]
                exact ih.1 (q + 1) a
      · rw [loopAux_poll_timeout ha]
        exact ⟨List.chain'_nil, Or.inl rfl⟩
    · intro q a lines tok
      cases hq : oracle q with
      | clientError e =>
        by_cases hfinal : a < maxAttempts - 1
        · rw [loopAux_pag_err_retry hq hfinal]
          obtain ⟨hchain, hhead⟩ := ih.1 (q + 1) (a + 1)
          rcases hhead with h | h
          · simp only [h]
            exact List.chain'_singleton lines
          · refine List.chain'_cons'.mpr ⟨?_, hchain⟩
            intro y hy
            rw [h] at hy
            simp at hy
            subst hy
            exact growStep_reset lines
        · rw [loopAux_pag_err_final hq hfinal]
          exact List.chain'_singleton lines
      | ok r =>
        cases htok : r.nextToken with
        | none =>
          rw [loopAux_pag_none hq htok]
          exact List.chain'_cons.mpr
            ⟨growStep_append lines _, List.chain'_singleton _⟩
        | some t =>
          rw [loopAux_pag_some hq htok]
          exact List.chain'_cons.mpr
            ⟨growStep_append lines _,
              ih.2 (q + 1) a (lines ++ collectLines r.blocks) t⟩

/-! ## Shape of the outer wrapper -/

theorem extract_ok_shape (oracle : Nat → QueryResult) (fuel : Nat)
    (jobId : String) :
    extract_text_from_s3 (StartResult.ok jobId) oracle fuel =
      match (loopAux oracle 60 fuel 0 0 Phase.polling).outcome with
      | none => ⟨none, (loopAux oracle 60 fuel 0 0 Phase.polling).queries,
          (loopAux oracle 60 fuel 0 0 Phase.polling).trace⟩
      | some (Outcome.ret t) => ⟨some (Outcome.ret t),
          (loopAux oracle 60 fuel 0 0 Phase.polling).queries,
          (loopAux oracle 60 fuel 0 0 Phase.polling).trace⟩
      | some (Outcome.exc ty msg) => ⟨some (Outcome.exc ty
          ("Unexpected error during text extraction: " ++ msg)),
          (loopAux oracle 60 fuel 0 0 Phase.polling).queries,
          (loopAux oracle 60 fuel 0 0 Phase.polling).trace⟩ := rfl

theorem extract_trace_eq (oracle : Nat → QueryResult) (fuel : Nat)
    (jobId : String) :
    (extract_text_from_s3 (StartResult.ok jobId) oracle fuel).trace =
      (loopAux oracle 60 fuel 0 0 Phase.polling).trace := by
  rw [extract_ok_shape]
  cases h : (loopAux oracle 60 fuel 0 0 Phase.polling).outcome with
  | none => rfl
  | some o => cases o <;> rfl

/-! ## The claims -/

/-- C1: for every text and positive `max_chars`, splitting each chunk of
`chunk_text text max_chars` on whitespace and concatenating the word
lists in output order yields exactly the whitespace-separated words of
the trimmed input — no word dropped, duplicated, or reordered. -/
theorem claim_C1_word_order (t : List Char) (mc : Int) (hmc : 0 < mc)
    (cs : List (List Char)) (h : chunk_text t mc = some cs) :
    (cs.map pyWords).flatten = pyWords (pyStrip t) := by
  obtain ⟨cs', hcs', _, hwords⟩ := chunk_text_spec t mc
  rw [h] at hcs'
  injection hcs' with he
  subst he
  rw [pyWords_strip]
  exact hwords

theorem claim_C1_word_order_witness :
    (([ "Hello".toList, "world.".toList, "This is a".toList,
        "test.".toList ].map pyWords).flatten
      = pyWords (pyStrip "Hello world. This is a test.".toList)) :=
  claim_C1_word_order "Hello world. This is a test.".toList 10 (by decide)
    [ "Hello".toList, "world.".toList, "This is a".toList, "test.".toList ]
    (by decide)

/-- C2: in a run of `extract_text_from_s3` where, after `k` IN_PROGRESS
polls, the service reports SUCCEEDED and delivers its result across the
page chain `r0 :: rest` linked by continuation tokens with no query
errors, the returned string is the newline-join of exactly the
LINE-classified blocks' texts of all pages in service order (other block
types contribute nothing, by `collectLines`), and the SUCCEEDED branch
issues exactly one status query per page: the total query count is `k`
polls plus `(r0 :: rest).length`. -/
theorem claim_C2_pagination (oracle : Nat → QueryResult) (jobId : String)
    (k : Nat) (r0 : TResponse) (rest : List TResponse) (fuel : Nat)
    (hk : k < 60)
    (hprog : ∀ i, i < k → ∃ r, oracle i = QueryResult.ok r ∧
      r.jobStatus = "IN_PROGRESS")
    (hst : r0.jobStatus = "SUCCEEDED") (hch : chained (r0 :: rest))
    (hserve : servesChain oracle k (r0 :: rest))
    (hfuel : k + (r0 :: rest).length ≤ fuel) :
    (extract_text_from_s3 (StartResult.ok jobId) oracle fuel).outcome =
      some (Outcome.ret (joinLines
        (((r0 :: rest).map (fun r => collectLines r.blocks)).flatten))) ∧
    (extract_text_from_s3 (StartResult.ok jobId) oracle fuel).queries =
      k + (r0 :: rest).length := by
  have hpre := loopAux_progress_prefix oracle 60 k fuel 0 0
    (fun i hi => by
      obtain ⟨r, h1, h2⟩ := hprog i hi
      exact ⟨r, by simpa using h1, h2⟩)
    (by omega) (by omega)
  simp only [Nat.zero_add] at hpre
  have hsucc := loopAux_succeeded oracle 60 r0 rest (fuel - k) k k hst hch
    hserve (by omega) (by omega)
  constructor
  · rw [extract_ok_shape, hpre, hsucc.1]
  · rw [extract_ok_shape, hpre, hsucc.1]
    show (loopAux oracle 60 (fuel - k) k k Phase.polling).queries =
      k + (r0 :: rest).length
    exact hsucc.2

theorem claim_C2_pagination_witness :
    (extract_text_from_s3 (StartResult.ok "job") specOracle 3).outcome =
      some (Outcome.ret "A\nB\nC") ∧
    (extract_text_from_s3 (StartResult.ok "job") specOracle 3).queries = 3 := by
  have h := claim_C2_pagination specOracle "job" 1
    ⟨"SUCCEEDED", [⟨"LINE", "A"⟩, ⟨"LINE", "B"⟩], some "tok", none⟩
    [⟨"SUCCEEDED", [⟨"LINE", "C"⟩], none, none⟩] 3
    (by decide)
    (by
      intro i hi
      match i, hi with
      | 0, _ => exact ⟨⟨"IN_PROGRESS", [], none, none⟩, rfl, rfl⟩)
    rfl
    ⟨⟨"tok", rfl⟩, rfl⟩
    (by
      intro i hi
      match i, hi with
      | 0, _ => rfl
      | 1, _ => rfl)
    (by decide)
  refine ⟨?_, ?_⟩
  · rw [h.1]
    rfl
  · rw [h.2]
    rfl

/-- C3 (code bug): against a service that forever reports the unhandled
status `PARTIAL_SUCCESS` (a status Textract can genuinely return), the
polling loop of `extract_text_from_s3` never terminates: for every
iteration budget `fuel` the loop is still running (`outcome = none`),
having issued one status query per iteration without ever increasing the
`attempt` counter — so no bound of 60 polling attempts holds. -/
theorem claim_C3_unhandled_status_loops (fuel : Nat) :
    (extract_text_from_s3 (StartResult.ok "job") stuckOracle fuel).outcome
      = none ∧
    (extract_text_from_s3 (StartResult.ok "job") stuckOracle fuel).queries
      = fuel := by
  rw [extract_ok_shape, loopAux_stuck fuel 0]
  exact ⟨rfl, by simp⟩

/-- C4: for every text and positive `max_chars`, every chunk of
`chunk_text text max_chars` has length at most `max_chars`, except a
chunk that is a single whitespace-free word longer than `max_chars` —
the unsplittable-word case is the only way a chunk exceeds the limit. -/
theorem claim_C4_chunk_length (t : List Char) (mc : Int) (hmc : 0 < mc)
    (cs : List (List Char)) (h : chunk_text t mc = some cs) :
    ∀ c ∈ cs, (c.length : Int) ≤ mc ∨
      (mc < (c.length : Int) ∧ c ≠ [] ∧ wsFree c ∧ pyWords c = [c]) := by
  obtain ⟨cs', hcs', hgood, _⟩ := chunk_text_spec t mc
  rw [h] at hcs'
  injection hcs' with he
  subst he
  intro c hc
  obtain ⟨hne, _, hdisj⟩ := hgood c hc
  rcases hdisj with h1 | h2
  · exact Or.inl h1
  · by_cases hlen : (c.length : Int) ≤ mc
    · exact Or.inl hlen
    · exact Or.inr ⟨by omega, hne, h2, pyWords_wsfree hne h2⟩

theorem claim_C4_chunk_length_witness :
    (("abcdefghijkl".toList.length : Int) ≤ 5 ∨
      (5 < ("abcdefghijkl".toList.length : Int) ∧
        "abcdefghijkl".toList ≠ [] ∧ wsFree "abcdefghijkl".toList ∧
        pyWords "abcdefghijkl".toList = ["abcdefghijkl".toList])) :=
  claim_C4_chunk_length "abcdefghijkl mn".toList 5 (by decide)
    [ "abcdefghijkl".toList, "mn".toList ] (by decide)
    "abcdefghijkl".toList (by decide)

/-- C5 (counterexample): in a run where page 1 of a SUCCEEDED job has
been collected and the follow-up pagination query raises a transient
`ClientError`, the accumulated `text_lines` is discarded — the trace of
accumulator values is `[[], ["A"], [], ["A"], ["A", "B"]]`, which resets
to `[]` after `["A"]`, so the accumulation does not only grow. -/
theorem claim_C5_counterexample :
    (extract_text_from_s3 (StartResult.ok "job") cexOracle 4).trace =
      [[], ["A"], [], ["A"], ["A", "B"]] ∧
    ¬ List.Chain' growsOnly
      (extract_text_from_s3 (StartResult.ok "job") cexOracle 4).trace := by
  refine ⟨by decide, ?_⟩
  intro hchain
  rw [show (extract_text_from_s3 (StartResult.ok "job") cexOracle 4).trace =
      [[], ["A"], [], ["A"], ["A", "B"]] from by decide] at hchain
  have h2 := (List.chain'_cons.mp hchain).2
  have h3 := (List.chain'_cons.mp h2).1
  exact absurd h3 (by decide)

/-- C5 (amended): along every run of `extract_text_from_s3`, each
successive value of the `text_lines` accumulator either extends the
previous one or is a reset to the empty accumulation; the reset happens
exactly when a transient query error aborted pagination and a later poll
re-observed SUCCEEDED, restarting collection from the first page. -/
theorem claim_C5_grow_or_reset (startR : StartResult)
    (oracle : Nat → QueryResult) (fuel : Nat) :
    List.Chain' growStep (extract_text_from_s3 startR oracle fuel).trace := by
  cases startR with
  | clientError e => exact List.chain'_nil
  | ok jobId =>
    rw [extract_trace_eq]
    exact ((loopAux_trace_grow oracle 60 fuel).1 0 0).1

/-- C6 (counterexample): a job reported FAILED and a job that exhausts
the 60-attempt bound are both reported to the caller as an exception of
the same Python class, `RuntimeError` — there is no distinct structured
failure kind; only the message strings differ. -/
theorem claim_C6_counterexample :
    (extract_text_from_s3 (StartResult.ok "job") failedOracle 1).outcome =
      some (Outcome.exc "RuntimeError"
        "Unexpected error during text extraction: Textract job failed: Document too large") ∧
    (extract_text_from_s3 (StartResult.ok "job") progressOracle 61).outcome =
      some (Outcome.exc "RuntimeError"
        "Unexpected error during text extraction: Textract job timed out - took longer than expected to complete") := by
  exact ⟨rfl, rfl⟩

/-- C6 (amended): all four failure modes — submission rejected, job
FAILED (carrying the service-reported reason), attempt bound exhausted,
and a transient status-query error recurring on the final attempt — raise
an exception, so none is silently swallowed, but all four are the same
exception class `RuntimeError`; they are distinguishable only by their
message texts, which are pairwise distinct, and all but the submission
failure are additionally wrapped in an "Unexpected error during text
extraction: " prefix. -/
theorem claim_C6_same_class_distinct_messages :
    (extract_text_from_s3 (StartResult.clientError "AccessDenied")
        progressOracle 1).outcome =
      some (Outcome.exc "RuntimeError"
        "Failed to start Textract job: AccessDenied") ∧
    (extract_text_from_s3 (StartResult.ok "job") failedOracle 1).outcome =
      some (Outcome.exc "RuntimeError"
        "Unexpected error during text extraction: Textract job failed: Document too large") ∧
    (extract_text_from_s3 (StartResult.ok "job") progressOracle 61).outcome =
      some (Outcome.exc "RuntimeError"
        "Unexpected error during text extraction: Textract job timed out - took longer than expected to complete") ∧
    (extract_text_from_s3 (StartResult.ok "job") flakyOracle 60).outcome =
      some (Outcome.exc "RuntimeError"
        "Unexpected error during text extraction: Failed to get Textract job status: connection reset") ∧
    [ "Failed to start Textract job: AccessDenied",
      "Unexpected error during text extraction: Textract job failed: Document too large",
      "Unexpected error during text extraction: Textract job timed out - took longer than expected to complete",
      "Unexpected error during text extraction: Failed to get Textract job status: connection reset"
    ].Pairwise (fun a b => a ≠ b) := by
  refine ⟨rfl, rfl, rfl, rfl, ?_⟩
  decide

/-- C7 (counterexample): `chunk_text` called with the non-positive
`max_chars = 0` on the non-empty text `"a"` does not raise: it returns
the chunk list `["a"]` normally, so there is no fail-fast validation of
`max_chars`. -/
theorem claim_C7_counterexample :
    chunk_text ['a'] 0 = some [['a']] ∧ chunk_text ['a'] 0 ≠ none := by
  decide

/-- C7 (amended): `chunk_text` performs no validation of `max_chars`: for
every text and every `max_chars`, positive or not, it raises no error —
the only potentially raising expression (`word_chunks[-1]`) is never
reached with an empty list. -/
theorem claim_C7_no_validation (t : List Char) (mc : Int) :
    chunk_text t mc ≠ none := by
  obtain ⟨cs, hcs, _, _⟩ := chunk_text_spec t mc
  rw [hcs]
  exact Option.some_ne_none cs

/-- C8: with positive `max_chars`, `chunk_text` returns the empty
sequence on empty or whitespace-only text, and on any other text of
length at most `max_chars` it returns exactly one chunk: the input with
leading and trailing whitespace trimmed. -/
theorem claim_C8_small_inputs (t : List Char) (mc : Int) (hmc : 0 < mc) :
    (pyStrip t = [] → chunk_text t mc = some []) ∧
    (pyStrip t ≠ [] → (t.length : Int) ≤ mc →
      chunk_text t mc = some [pyStrip t]) := by
  constructor
  · intro h
    unfold chunk_text
    rw [if_pos h]
  · intro h1 h2
    unfold chunk_text
    rw [if_neg h1, if_pos h2]

theorem claim_C8_small_inputs_witness :
    chunk_text "   ".toList 5 = some [] ∧
    chunk_text " ab c ".toList 10 = some [pyStrip " ab c ".toList] :=
  ⟨(claim_C8_small_inputs "   ".toList 5 (by decide)).1 (by decide),
   (claim_C8_small_inputs " ab c ".toList 10 (by decide)).2 (by decide)
     (by decide)⟩

/-- C9: every chunk `c` produced by `chunk_text text max_chars` for some
text and positive `max_chars` is a fixed point: `chunk_text c max_chars`
returns exactly `[c]`. -/
theorem claim_C9_idempotent (t : List Char) (mc : Int) (hmc : 0 < mc)
    (cs : List (List Char)) (h : chunk_text t mc = some cs)
    (c : List Char) (hc : c ∈ cs) : chunk_text c mc = some [c] := by
  obtain ⟨cs', hcs', hgood, _⟩ := chunk_text_spec t mc
  rw [h] at hcs'
  injection hcs' with he
  subst he
  exact chunk_idem (hgood c hc)

theorem claim_C9_idempotent_witness :
    chunk_text "This is a".toList 10 = some ["This is a".toList] :=
  claim_C9_idempotent "Hello world. This is a test.".toList 10 (by decide)
    [ "Hello".toList, "world.".toList, "This is a".toList, "test.".toList ]
    (by decide) "This is a".toList (by decide)

/-- C10: for every text and every integer `max_chars`, including zero and
negative values, `chunk_text` terminates and returns a chunk list without
raising; with `max_chars ≤ 0` and non-whitespace input it degenerates to
exactly one word per chunk — the returned list is the word list of the
input. -/
theorem claim_C10_total_degenerate (t : List Char) (mc : Int) :
    (chunk_text t mc).isSome ∧
    (mc ≤ 0 → pyStrip t ≠ [] → chunk_text t mc = some (pyWords t)) := by
  constructor
  · obtain ⟨cs, hcs, _, _⟩ := chunk_text_spec t mc
    rw [hcs]
    rfl
  · intro hmc ht
    exact chunk_text_neg hmc ht

theorem claim_C10_total_degenerate_witness :
    (chunk_text "ab cd".toList (-1)).isSome ∧
    chunk_text "ab cd".toList (-1) = some (pyWords "ab cd".toList) :=
  ⟨(claim_C10_total_degenerate "ab cd".toList (-1)).1,
   (claim_C10_total_degenerate "ab cd".toList (-1)).2 (by decide) (by decide)⟩
